import Mathlib

/-!
# HytaleBlockReader — verification of the aggregation/visualization core

Shallow embedding of the React application `HytaleBlockReader` (layer-aware
variant in `src/unnamed/part_000`, reduced variants in the same file and in
`src/src/App.tsx`).  JavaScript objects keyed by strings are modelled as
association lists in insertion order (which is exactly the enumeration order
of `Object.entries` for non-index string keys); JavaScript 32-bit integer
semantics are modelled on `Int` with explicit wrap-around; strings are Lean
`String`s (names occurring in the data are ASCII, where JS `toLowerCase`,
`charCodeAt` and Lean's `String.toLower`, `Char.toNat` agree).
-/

namespace HytaleBlockReader

/-- An imported block or fluid record (`interface Block` in the source).
`name` is `none` when the JSON object has no `name` field; the JS truthiness
test `block.name` is then false, as it also is for the empty string.
Coordinates are integers (layer-aware variant); extra fields carried by the
JSON object are ignored by the whole core, so they are not modelled. -/
structure Rec where
  name : Option String
  x : Int
  y : Int
  z : Int
  rotation : Option Int
deriving DecidableEq, Repr

/-- The `type` tag of a tally entry: `'block' | 'fluid'`. -/
inductive MType where
  | block
  | fluid
deriving DecidableEq, Repr

/-- `interface MaterialInfo { count: number; type: 'block' | 'fluid' }`. -/
structure MaterialInfo where
  count : Nat
  type : MType
deriving DecidableEq, Repr

/-- The `Materials` object: a JS object keyed by material name, modelled as
an association list in insertion order. -/
abbrev Materials := List (String × MaterialInfo)

/-- JS truthiness of `block.name`: the field is present and a non-empty
string. -/
def Rec.nameTruthy (r : Rec) : Bool :=
  match r.name with
  | none => false
  | some s => !(s == "")

/-- `pat` is a prefix of the second list (helper for the JS
`String.prototype.includes` model; structurally recursive so that concrete
instances reduce in the kernel). -/
def startsWithChars : List Char → List Char → Bool
  | [], _ => true
  | _ :: _, [] => false
  | c :: cs, d :: ds => c == d && startsWithChars cs ds

/-- `pat` occurs as a contiguous substring of the second list (the JS
`String.prototype.includes` on the underlying character sequences). -/
def hasInfixChars (pat : List Char) : List Char → Bool
  | [] => startsWithChars pat []
  | c :: rest => startsWithChars pat (c :: rest) || hasInfixChars pat rest

/-- `name.toLowerCase().includes('empty')`: the lowercase form of the name
(JS `toLowerCase` maps each character to lowercase) contains the substring
`"empty"`. -/
def containsEmptyLower (s : String) : Bool :=
  hasInfixChars "empty".toList (s.toList.map Char.toLower)

/-- The filter applied to each record by the aggregation loop:
`block.name && !block.name.toLowerCase().includes('empty')`. -/
def qualifies (r : Rec) : Bool :=
  match r.name with
  | none => false
  | some s => !(s == "") && !(containsEmptyLower s)

/-- One iteration of the aggregation loop (`json.blocks.forEach(...)` body,
src/unnamed/part_000 lines 117–124 / 128–135): if the record qualifies,
ensure a tally entry exists for its name (created with count 0 and the
category of the list being processed), then increment that entry's count.
JS object update `m[k] = v` replaces the value in place when the key exists
and appends a new entry otherwise. -/
def tallyRecord (cat : MType) (m : Materials) (r : Rec) : Materials :=
  match r.name with
  | none => m
  | some s =>
    if s == "" || containsEmptyLower s then m
    else
      let m1 := if m.any (fun p => p.1 == s) then m else m ++ [(s, ⟨0, cat⟩)]
      m1.map (fun p => if p.1 == s then (p.1, ⟨p.2.count + 1, p.2.type⟩) else p)

/-- A JSON field that is expected to hold an array of records:
absent, present but not an array (`Array.isArray` false — this also covers
present falsy values, which fail the `json.blocks` truthiness test), or an
array. -/
inductive JField where
  | absent
  | nonArray
  | arr (xs : List Rec)
deriving DecidableEq, Repr

/-- The parsed import document: its `blocks` and `fluids` fields. -/
structure Doc where
  blocks : JField
  fluids : JField
deriving DecidableEq, Repr

/-- The material-counting phase of `handleFileImport` (lines 113–136): fold
the blocks array under category `block` starting from the empty object, then,
if `json.fluids && Array.isArray(json.fluids)`, fold the fluids array under
category `fluid`. -/
def countMaterials (bs : List Rec) (fluids : JField) : Materials :=
  let afterBlocks := bs.foldl (tallyRecord .block) []
  match fluids with
  | .arr fs => fs.foldl (tallyRecord .fluid) afterBlocks
  | _ => afterBlocks

/-! ## Color hash (src/unnamed/part_000 lines 165–179) -/

/-- `h & h` / `h << 5` reduction: wrap an integer to JS 32-bit signed
(two's-complement) semantics. -/
def toInt32 (n : Int) : Int :=
  (n + 2 ^ 31) % 2 ^ 32 - 2 ^ 31

/-- One iteration of the hash loop:
`hash = ((hash << 5) - hash) + char; hash = hash & hash`.
In JS, `hash << 5` wraps `hash * 32` to a signed 32-bit integer, the
subtraction and addition are exact (double precision), and `hash & hash`
wraps the result back to a signed 32-bit integer. -/
def hashStep (hash : Int) (c : Nat) : Int :=
  toInt32 (toInt32 (hash * 32) - hash + c)

/-- The hash accumulated over the name's character codes, starting from 0. -/
def nameHash (s : String) : Int :=
  s.toList.foldl (fun h c => hashStep h c.toNat) 0

/-- The template literal `hsl(${h}, ${s}%, ${l}%)`. -/
def hslString (h s l : Nat) : String :=
  "hsl(" ++ toString h ++ ", " ++ toString s ++ "%, " ++ toString l ++ "%)"

/-- `generateColorFromName` (lines 165–179).  `hash % 360` is the JS
remainder operator (sign of the dividend), i.e. `Int.tmod`; `Math.abs` on an
integer-valued result is `Int.natAbs`. -/
def generateColorFromName (name : String) : String :=
  let hash := nameHash name
  let hue := (Int.tmod hash 360).natAbs
  let saturation := 65 + hash.natAbs % 20
  let lightness := 45 + hash.natAbs % 15
  hslString hue saturation lightness

/-! ## Block colors (lines 182–196) -/

/-- The `BlockColors` object: JS object from block name to color string. -/
abbrev BlockColors := List (String × String)

/-- JS object read `m[k]`, as an `Option`. -/
def colorGet (m : BlockColors) (k : String) : Option String :=
  (m.find? (fun p => p.1 == k)).map (·.2)

/-- JS truthiness of `newColors[block.name]`: the key is present and its
value is a non-empty string (`undefined` and `""` are falsy). -/
def colorTruthy (m : BlockColors) (k : String) : Bool :=
  match m.find? (fun p => p.1 == k) with
  | none => false
  | some p => !(p.2 == "")

/-- JS object update `m[k] = v`: replace in place if the key exists,
append otherwise. -/
def colorSet (m : BlockColors) (k v : String) : BlockColors :=
  if m.any (fun p => p.1 == k) then
    m.map (fun p => if p.1 == k then (p.1, v) else p)
  else m ++ [(k, v)]

/-- Loop body of `ensureBlockColors` (`blocksToColor.forEach(...)`, lines
186–191): assign `generateColorFromName` to a block whose `name` is truthy
and whose current color is falsy (`block.name && !newColors[block.name]`). -/
def colorRecord (newColors : BlockColors) (b : Rec) : BlockColors :=
  match b.name with
  | none => newColors
  | some s =>
    if s == "" then newColors
    else if colorTruthy newColors s then newColors
    else colorSet newColors s (generateColorFromName s)

/-- `ensureBlockColors` (lines 182–196): starting from a copy of the current
color map, walk the imported blocks assigning missing colors.  The
`hasNewColors` flag in the source only decides whether `setBlockColors` is
called; the resulting map is the same either way, so the fold returns the
updated map directly. -/
def ensureBlockColors (blockColors : BlockColors) (blocksToColor : List Rec) :
    BlockColors :=
  blocksToColor.foldl colorRecord blockColors

/-! ## Import handler (lines 94–148) -/

/-- The outcome of `JSON.parse` on the file text: a parse failure carrying
the parser's diagnostic message, or a parsed document. -/
inductive ImportInput where
  | parseFail (msg : String)
  | parsed (doc : Doc)

/-- The in-memory component state touched by the import flow. -/
structure AppState where
  fileName : String
  error : String
  materials : Materials
  blocks : List Rec
  blockColors : BlockColors
deriving DecidableEq, Repr

/-- The `reader.onload` callback (lines 102–146): on parse failure set the
error and clear materials and blocks; on a document without a `blocks` array
set the schema error and clear materials (the block list is NOT touched on
this path); otherwise store the tally, the raw blocks array, and the primed
color map. -/
def importLoaded (input : ImportInput) (st : AppState) : AppState :=
  match input with
  | .parseFail msg =>
    { st with
      error := "Failed to parse JSON: " ++ msg
      materials := []
      blocks := [] }
  | .parsed doc =>
    match doc.blocks with
    | .arr bs =>
      { st with
        materials := countMaterials bs doc.fluids
        blocks := bs
        blockColors := ensureBlockColors st.blockColors bs }
    | _ =>
      { st with
        error := "JSON must contain a \"blocks\" array"
        materials := [] }

/-- `handleFileImport` (lines 94–148): record the file name, clear the error
message, then run the asynchronous load continuation on the read result. -/
def handleFileImport (fileName : String) (input : ImportInput)
    (st : AppState) : AppState :=
  importLoaded input { st with fileName := fileName, error := "" }

/-! ## Sorted display list (line 150–151) and Block Count stat (line 230) -/

/-- `Object.entries(materials).sort((a, b) => b[1].count - a[1].count)`:
the entries of the tally in descending count order.  The JS comparator
orders `a` before `b` exactly when `b.count - a.count ≤ 0`. -/
def sortedMaterials (materials : Materials) : List (String × MaterialInfo) :=
  materials.mergeSort (fun a b => decide (b.2.count ≤ a.2.count))

/-- `const totalBlocks = blocks.length` (line 230), shown as the
"Total Blocks" stat of the Block Count tab (lines 270–273). -/
def totalBlocks (st : AppState) : Nat :=
  st.blocks.length

/-- Sum of the displayed tally counts
(`Object.values(materials).reduce((a, b) => a + b.count, 0)`). -/
def sumCounts (m : Materials) : Nat :=
  (m.map (fun p => p.2.count)).sum

/-! ## Layer visualizer (lines 198–230) -/

/-- `blocks.filter(b => b.y === selectedLayer)` (lines 202–204). -/
def blocksOnLayer (blocks : List Rec) (selectedLayer : Int) : List Rec :=
  blocks.filter (fun b => b.y == selectedLayer)

/-- `Math.min(...)` over a list of arguments.  The source only calls it on a
non-empty list (`blocks.length === 0` is handled first); `Math.min()` of no
arguments would be `Infinity`, which has no integer counterpart, so the nil
case here is an arbitrary unreachable value. -/
def mathMin : List Int → Int
  | [] => 0
  | x :: xs => xs.foldl min x

/-- `Math.max(...)` over a list of arguments; nil case unreachable as for
`mathMin`. -/
def mathMax : List Int → Int
  | [] => 0
  | x :: xs => xs.foldl max x

/-- The result record of `getGlobalGridBounds`. -/
structure Bounds where
  minX : Int
  maxX : Int
  minZ : Int
  maxZ : Int
deriving DecidableEq, Repr

/-- `getGlobalGridBounds` (lines 207–217): degenerate origin bounds for an
empty block list, otherwise min/max of `x` and of `z` over ALL blocks. -/
def getGlobalGridBounds (blocks : List Rec) : Bounds :=
  if blocks.length == 0 then ⟨0, 0, 0, 0⟩
  else
    let xValues := blocks.map (·.x)
    let zValues := blocks.map (·.z)
    ⟨mathMin xValues, mathMax xValues, mathMin zValues, mathMax zValues⟩

/-- The key of the grid `Map`: the template literal `` `${x},${z}` ``. -/
def cellKey (x z : Int) : String :=
  toString x ++ "," ++ toString z

/-- The `Map<string, Block>` of the grid, as an association list in
insertion order.  `Map.set` replaces the value in place when the key is
already present and appends otherwise. -/
abbrev GridMap := List (String × Rec)

/-- `Map.prototype.set`. -/
def mapSet (m : GridMap) (k : String) (v : Rec) : GridMap :=
  if m.any (fun p => p.1 == k) then
    m.map (fun p => if p.1 == k then (p.1, v) else p)
  else m ++ [(k, v)]

/-- `Map.prototype.get`. -/
def mapGet (m : GridMap) (k : String) : Option Rec :=
  (m.find? (fun p => p.1 == k)).map (·.2)

/-- `getBlockGridMap` (lines 220–226): for the blocks of the selected layer,
`map.set(`x,z`, block)` in input order, so a later block at the same cell
overwrites an earlier one. -/
def getBlockGridMap (layerBlocks : List Rec) : GridMap :=
  layerBlocks.foldl (fun m b => mapSet m (cellKey b.x b.z) b) []

/-! ## Persistence effects (lines 66–92) -/

/-- The relevant keys of the browser's local key-value store, each entry
`none` when the key is absent.  Values are stored typed; the JSON
round-trip of `setItem`/`getItem` is not modelled. -/
structure StoredState where
  blocks : Option (List Rec)
  blockColors : Option BlockColors
  materials : Option Materials
  checkedItems : Option (List (String × Bool))
deriving DecidableEq, Repr

/-- Effect of lines 67–71: write `blocks` only when the new list is
non-empty. -/
def saveBlocksEffect (blocks : List Rec) (store : StoredState) : StoredState :=
  if blocks.length > 0 then { store with blocks := some blocks } else store

/-- Effect of lines 74–78: write `blockColors` only when the new map has at
least one key. -/
def saveBlockColorsEffect (blockColors : BlockColors) (store : StoredState) :
    StoredState :=
  if blockColors.length > 0 then { store with blockColors := some blockColors }
  else store

/-- Effect of lines 81–85: write `materials` only when the new map has at
least one key. -/
def saveMaterialsEffect (materials : Materials) (store : StoredState) :
    StoredState :=
  if materials.length > 0 then { store with materials := some materials }
  else store

/-- Effect of lines 88–92: write `checkedItems` unless the initial
load-from-storage pass is still in progress. -/
def saveCheckedItemsEffect (isLoadingFromStorage : Bool)
    (checkedItems : List (String × Bool)) (store : StoredState) : StoredState :=
  if !isLoadingFromStorage then { store with checkedItems := some checkedItems }
  else store

/-! ## Derived notions used by the statements -/

/-- The keys of a JS-object/Map model are pairwise distinct. -/
def keysNodup {α : Type} (m : List (String × α)) : Prop :=
  (m.map Prod.fst).Nodup

/-- The count stored in the tally for a name (0 when the name is absent). -/
def lookupCount (m : Materials) (s : String) : Nat :=
  match m.find? (fun p => p.1 == s) with
  | some p => p.2.count
  | none => 0

/-- The category stored in the tally for a name. -/
def lookupType (m : Materials) (s : String) : Option MType :=
  (m.find? (fun p => p.1 == s)).map (·.2.type)

/-- The number of records in a list that qualify (present, non-empty,
non-"empty"-containing name) and carry exactly the name `s`. -/
def qualCount (l : List Rec) (s : String) : Nat :=
  (l.filter (fun r => qualifies r && (r.name == some s))).length

/-- The record list held by an optional-array field: its elements when it is
an array, nothing otherwise. -/
def fluidList (f : JField) : List Rec :=
  match f with
  | .arr fs => fs
  | _ => []

/-- Modelled from the spec: the hash recurrence as the specification words
it, `hash = hash * 31 + charCode` reduced to 32-bit signed wrap-around at
each step (to be compared with `nameHash`, which follows the source's
`(hash << 5) - hash` form). -/
def specHash (s : String) : Int :=
  s.toList.foldl (fun h c => toInt32 (h * 31 + c.toNat)) 0

/-- Modelled from the spec: the color the specification describes — hue
`abs(hash) mod 360`, saturation `65 + (abs(hash) mod 20)`, lightness
`45 + (abs(hash) mod 15)` of the folded hash. -/
def specColorFromName (s : String) : String :=
  hslString ((specHash s).natAbs % 360) (65 + (specHash s).natAbs % 20)
    (45 + (specHash s).natAbs % 15)

/-- The last record of the list occupying the cell `(x, z)`. -/
def lastBlockAt (l : List Rec) (x z : Int) : Option Rec :=
  (l.filter (fun b => b.x == x && b.z == z)).getLast?

/-- Reference form of the decimal digit list of a natural number (most
significant digit first), used to reason about `Nat.repr` and hence about
the `` `${x},${z}` `` cell keys. -/
def digitsSpec (n : Nat) : List Char :=
  if h : n < 10 then [Nat.digitChar n]
  else
    have : n / 10 < n := Nat.div_lt_self (by omega) (by omega)
    digitsSpec (n / 10) ++ [Nat.digitChar (n % 10)]

/-- Numeric value of a decimal digit character. -/
def charVal (c : Char) : Nat :=
  c.toNat - '0'.toNat

/-- The number of distinct `(x, z)` coordinate pairs among a list of
records. -/
def distinctCells (l : List Rec) : Nat :=
  (l.map (fun b => (b.x, b.z))).toFinset.card

/-! ## Lemmas: JS-object association lists -/

theorem find?_map_keyfix {α : Type} (g : String × α → String × α)
    (hg : ∀ p, (g p).1 = p.1) (m : List (String × α)) (k : String) :
    (m.map g).find? (fun p => p.1 == k) =
      (m.find? (fun p => p.1 == k)).map g := by
  rw [List.find?_map]
  have hpred : ((fun p : String × α => p.1 == k) ∘ g) =
      (fun p : String × α => p.1 == k) := by
    funext p
    simp [Function.comp, hg p]
  rw [hpred]

theorem any_of_find?_eq_some {α : Type} {m : List (String × α)}
    {pred : String × α → Bool} {q : String × α} (h : m.find? pred = some q) :
    m.any pred = true :=
  List.any_eq_true.mpr ⟨q, List.mem_of_find?_eq_some h, List.find?_some h⟩

theorem find?_isSome_of_any {α : Type} {m : List (String × α)}
    {pred : String × α → Bool} (h : m.any pred = true) :
    (m.find? pred).isSome := by
  rcases List.any_eq_true.mp h with ⟨p, hp, hpred⟩
  exact List.find?_isSome.mpr ⟨p, hp, hpred⟩

theorem countP_key_eq_zero {α : Type} {m : List (String × α)} {s : String}
    (h : ∀ p ∈ m, p.1 ≠ s) : m.countP (fun p => p.1 == s) = 0 := by
  apply List.countP_eq_zero.mpr
  intro p hp
  simpa using h p hp

theorem countP_key_eq_one {α : Type} {m : List (String × α)} {s : String}
    (hnd : keysNodup m) (hmem : m.any (fun p => p.1 == s) = true) :
    m.countP (fun p => p.1 == s) = 1 := by
  induction m with
  | nil => simp at hmem
  | cons p t ih =>
    rcases List.nodup_cons.mp hnd with ⟨hp, ht⟩
    by_cases hk : p.1 = s
    · rw [List.countP_cons]
      have : t.countP (fun q => q.1 == s) = 0 := by
        apply countP_key_eq_zero
        intro q hq hqs
        exact hp (by rw [hk, ← hqs]; exact List.mem_map_of_mem Prod.fst hq)
      simp [this, hk]
    · have hmem' : t.any (fun q => q.1 == s) = true := by
        rcases List.any_eq_true.mp hmem with ⟨q, hq, hqs⟩
        rcases List.mem_cons.mp hq with rfl | hq'
        · exact absurd (by simpa using hqs) hk
        · exact List.any_eq_true.mpr ⟨q, hq', hqs⟩
      rw [List.countP_cons]
      simp [ih ht hmem', hk]

/-! ## Lemmas: one aggregation step -/

theorem tallyRecord_of_name_none {cat : MType} {m : Materials} {r : Rec}
    (h : r.name = none) : tallyRecord cat m r = m := by
  simp [tallyRecord, h]

theorem tallyRecord_of_guard {cat : MType} {m : Materials} {r : Rec}
    {s0 : String} (h : r.name = some s0)
    (hg : (s0 == "" || containsEmptyLower s0) = true) :
    tallyRecord cat m r = m := by
  simp [tallyRecord, h, hg]

theorem tallyRecord_of_active {cat : MType} {m : Materials} {r : Rec}
    {s0 : String} (h : r.name = some s0)
    (hg : (s0 == "" || containsEmptyLower s0) = false) :
    tallyRecord cat m r =
      (if m.any (fun p => p.1 == s0) then m else m ++ [(s0, ⟨0, cat⟩)]).map
        (fun p => if p.1 == s0 then (p.1, ⟨p.2.count + 1, p.2.type⟩) else p) := by
  rw [Bool.or_eq_false_iff] at hg
  simp [tallyRecord, h, hg.1, hg.2]

theorem qualifies_false_of_name_none {r : Rec} (h : r.name = none) :
    qualifies r = false := by
  simp [qualifies, h]

theorem qualifies_false_of_guard {r : Rec} {s0 : String} (h : r.name = some s0)
    (hg : (s0 == "" || containsEmptyLower s0) = true) :
    qualifies r = false := by
  rcases Bool.or_eq_true_iff.mp hg with h' | h' <;> simp [qualifies, h, h']

theorem qualifies_true_of_active {r : Rec} {s0 : String} (h : r.name = some s0)
    (hg : (s0 == "" || containsEmptyLower s0) = false) :
    qualifies r = true := by
  rw [Bool.or_eq_false_iff] at hg
  simp [qualifies, h, hg.1, hg.2]

/-- The updating map of the increment step fixes every key. -/
theorem incr_keyfix (s0 : String) :
    ∀ p : String × MaterialInfo,
      ((fun p : String × MaterialInfo =>
        if p.1 == s0 then ((p.1 : String), (⟨p.2.count + 1, p.2.type⟩ : MaterialInfo)) else p) p).1 = p.1 := by
  intro p
  by_cases h : (p.1 == s0) = true <;> simp [h]

theorem lookupCount_tallyRecord (cat : MType) (m : Materials) (r : Rec)
    (s : String) :
    lookupCount (tallyRecord cat m r) s =
      lookupCount m s + (if qualifies r && (r.name == some s) then 1 else 0) := by
  cases hn : r.name with
  | none =>
    simp [tallyRecord_of_name_none hn, qualifies_false_of_name_none hn]
  | some s0 =>
    cases hg : (s0 == "" || containsEmptyLower s0) with
    | true =>
      simp [tallyRecord_of_guard hn hg, qualifies_false_of_guard hn hg]
    | false =>
      rw [tallyRecord_of_active hn hg]
      have hq := qualifies_true_of_active hn hg
      by_cases hss : s0 = s
      · subst hss
        by_cases hmem : m.any (fun p => p.1 == s0) = true
        · rw [if_pos hmem]
          have hsome := find?_isSome_of_any hmem
          cases hfind : m.find? (fun p => p.1 == s0) with
          | none => rw [hfind] at hsome; simp at hsome
          | some q =>
            have hqkey : (q.1 == s0) = true := by
              have := List.find?_some hfind
              simpa using this
            have hqk : q.1 = s0 := by simpa using hqkey
            unfold lookupCount
            rw [find?_map_keyfix _ (incr_keyfix s0), hfind]
            simp [hq, hn, hqk]
        · rw [if_neg hmem]
          have hfind : m.find? (fun p => p.1 == s0) = none := by
            cases hfind : m.find? (fun p => p.1 == s0) with
            | none => rfl
            | some q => exact absurd (any_of_find?_eq_some hfind) hmem
          unfold lookupCount
          rw [find?_map_keyfix _ (incr_keyfix s0), List.find?_append, hfind]
          simp [hq, hn]
      · have hkey : ((s0 : String) == s) = false := by
          simp [hss]
        unfold lookupCount
        rw [find?_map_keyfix _ (incr_keyfix s0)]
        have happ :
            (if m.any (fun p => p.1 == s0) then m else m ++ [(s0, ⟨0, cat⟩)]).find?
              (fun p => p.1 == s) = m.find? (fun p => p.1 == s) := by
          by_cases hmem : m.any (fun p => p.1 == s0) = true
          · rw [if_pos hmem]
          · rw [if_neg hmem, List.find?_append]
            simp [hkey]
        rw [happ]
        cases hfind : m.find? (fun p => p.1 == s) with
        | none => simp [hq, hn, hss]
        | some q =>
          have hqkey : (q.1 == s) = true := by
            have := List.find?_some hfind
            simpa using this
          have hqk : q.1 = s := by simpa using hqkey
          have hqs0 : ¬q.1 = s0 := by
            rw [hqk]
            exact fun h => hss h.symm
          simp [hq, hn, hss, hqs0]

theorem lookupType_tallyRecord (cat : MType) (m : Materials) (r : Rec)
    (s : String) :
    lookupType (tallyRecord cat m r) s =
      (lookupType m s).or
        (if qualifies r && (r.name == some s) then some cat else none) := by
  cases hn : r.name with
  | none =>
    simp [tallyRecord_of_name_none hn, qualifies_false_of_name_none hn]
  | some s0 =>
    cases hg : (s0 == "" || containsEmptyLower s0) with
    | true =>
      simp [tallyRecord_of_guard hn hg, qualifies_false_of_guard hn hg]
    | false =>
      rw [tallyRecord_of_active hn hg]
      have hq := qualifies_true_of_active hn hg
      by_cases hss : s0 = s
      · subst hss
        by_cases hmem : m.any (fun p => p.1 == s0) = true
        · rw [if_pos hmem]
          have hsome := find?_isSome_of_any hmem
          cases hfind : m.find? (fun p => p.1 == s0) with
          | none => rw [hfind] at hsome; simp at hsome
          | some q =>
            have hqk : q.1 = s0 := by
              have := List.find?_some hfind
              simpa using this
            unfold lookupType
            rw [find?_map_keyfix _ (incr_keyfix s0), hfind]
            simp [hqk]
        · rw [if_neg hmem]
          have hfind : m.find? (fun p => p.1 == s0) = none := by
            cases hfind : m.find? (fun p => p.1 == s0) with
            | none => rfl
            | some q => exact absurd (any_of_find?_eq_some hfind) hmem
          unfold lookupType
          rw [find?_map_keyfix _ (incr_keyfix s0), List.find?_append, hfind]
          simp [hq, hn]
      · have hkey : ((s0 : String) == s) = false := by
          simp [hss]
        unfold lookupType
        rw [find?_map_keyfix _ (incr_keyfix s0)]
        have happ :
            (if m.any (fun p => p.1 == s0) then m else m ++ [(s0, ⟨0, cat⟩)]).find?
              (fun p => p.1 == s) = m.find? (fun p => p.1 == s) := by
          by_cases hmem : m.any (fun p => p.1 == s0) = true
          · rw [if_pos hmem]
          · rw [if_neg hmem, List.find?_append]
            simp [hkey]
        rw [happ]
        cases hfind : m.find? (fun p => p.1 == s) with
        | none => simp [hq, hn, hss]
        | some q =>
          have hqk : q.1 = s := by
            have := List.find?_some hfind
            simpa using this
          have hqs0 : ¬q.1 = s0 := by
            rw [hqk]
            exact fun h => hss h.symm
          simp [hn, hss, hqs0]

theorem keysNodup_tallyRecord {cat : MType} {m : Materials} {r : Rec}
    (hnd : keysNodup m) : keysNodup (tallyRecord cat m r) := by
  cases hn : r.name with
  | none => rw [tallyRecord_of_name_none hn]; exact hnd
  | some s0 =>
    cases hg : (s0 == "" || containsEmptyLower s0) with
    | true => rw [tallyRecord_of_guard hn hg]; exact hnd
    | false =>
      rw [tallyRecord_of_active hn hg]
      have hmapkeys :
          ∀ l : Materials,
            (l.map (fun p =>
              if p.1 == s0 then
                ((p.1 : String), (⟨p.2.count + 1, p.2.type⟩ : MaterialInfo))
              else p)).map Prod.fst = l.map Prod.fst := by
        intro l
        rw [List.map_map]
        apply List.map_congr_left
        intro p _
        exact incr_keyfix s0 p
      by_cases hmem : m.any (fun p => p.1 == s0) = true
      · rw [if_pos hmem]
        unfold keysNodup
        rw [hmapkeys]
        exact hnd
      · rw [if_neg hmem]
        unfold keysNodup
        rw [hmapkeys]
        have hnotin : s0 ∉ m.map Prod.fst := by
          intro hin
          rcases List.mem_map.mp hin with ⟨p, hp, hps⟩
          have := (List.any_eq_false.mp (Bool.eq_false_iff.mpr hmem)) p hp
          simp [hps] at this
        rw [List.map_append, List.nodup_append]
        refine ⟨hnd, List.nodup_singleton s0, ?_⟩
        intro a ha hb
        simp at hb
        subst hb
        exact hnotin ha

theorem sumCounts_map_incr (s0 : String) (l : Materials) :
    sumCounts (l.map (fun p =>
        if p.1 == s0 then
          ((p.1 : String), (⟨p.2.count + 1, p.2.type⟩ : MaterialInfo))
        else p)) =
      sumCounts l + l.countP (fun p => p.1 == s0) := by
  induction l with
  | nil => rfl
  | cons p t ih =>
    by_cases h : p.1 = s0 <;>
      simp [sumCounts, List.countP_cons, h] at ih ⊢ <;> omega

theorem sumCounts_tallyRecord {cat : MType} {m : Materials} {r : Rec}
    (hnd : keysNodup m) :
    sumCounts (tallyRecord cat m r) =
      sumCounts m + (if qualifies r then 1 else 0) := by
  cases hn : r.name with
  | none =>
    simp [tallyRecord_of_name_none hn, qualifies_false_of_name_none hn]
  | some s0 =>
    cases hg : (s0 == "" || containsEmptyLower s0) with
    | true =>
      simp [tallyRecord_of_guard hn hg, qualifies_false_of_guard hn hg]
    | false =>
      rw [tallyRecord_of_active hn hg]
      have hq := qualifies_true_of_active hn hg
      by_cases hmem : m.any (fun p => p.1 == s0) = true
      · rw [if_pos hmem, sumCounts_map_incr, countP_key_eq_one hnd hmem]
        simp [hq]
      · rw [if_neg hmem, sumCounts_map_incr]
        have hzero : m.countP (fun p => p.1 == s0) = 0 := by
          apply countP_key_eq_zero
          intro p hp hps
          have := (List.any_eq_false.mp (Bool.eq_false_iff.mpr hmem)) p hp
          simp [hps] at this
        rw [List.countP_append, hzero]
        simp [sumCounts, hq]

/-! ## Lemmas: folding a record list into the tally -/

theorem lookupCount_foldl (cat : MType) (l : List Rec) (m : Materials)
    (s : String) :
    lookupCount (l.foldl (tallyRecord cat) m) s =
      lookupCount m s + qualCount l s := by
  induction l generalizing m with
  | nil => simp [qualCount]
  | cons b t ih =>
    rw [List.foldl_cons, ih, lookupCount_tallyRecord]
    unfold qualCount
    rw [List.filter_cons]
    by_cases h : (qualifies b && (b.name == some s)) = true <;> simp [h] <;> omega

theorem lookupType_foldl (cat : MType) (l : List Rec) (m : Materials)
    (s : String) :
    lookupType (l.foldl (tallyRecord cat) m) s =
      (lookupType m s).or
        (if l.any (fun r => qualifies r && (r.name == some s)) then some cat
         else none) := by
  induction l generalizing m with
  | nil => cases h : lookupType m s <;> simp [h]
  | cons b t ih =>
    rw [List.foldl_cons, ih, lookupType_tallyRecord, Option.or_assoc]
    congr 1
    rw [List.any_cons]
    by_cases hb : (qualifies b && (b.name == some s)) = true <;>
      by_cases ht : t.any (fun r => qualifies r && (r.name == some s)) = true <;>
        simp [hb, ht]

theorem keysNodup_foldl (cat : MType) (l : List Rec) (m : Materials)
    (hnd : keysNodup m) : keysNodup (l.foldl (tallyRecord cat) m) := by
  induction l generalizing m with
  | nil => exact hnd
  | cons b t ih => exact ih _ (keysNodup_tallyRecord hnd)

theorem sumCounts_foldl (cat : MType) (l : List Rec) (m : Materials)
    (hnd : keysNodup m) :
    sumCounts (l.foldl (tallyRecord cat) m) =
      sumCounts m + (l.filter qualifies).length := by
  induction l generalizing m with
  | nil => simp
  | cons b t ih =>
    rw [List.foldl_cons, ih _ (keysNodup_tallyRecord hnd),
      sumCounts_tallyRecord hnd, List.filter_cons]
    by_cases h : qualifies b = true <;> simp [h] <;> omega

/-- `countMaterials` written through `fluidList`: the fluids fold runs on the
field's records when it is an array and on nothing otherwise. -/
theorem countMaterials_eq (bs : List Rec) (fluids : JField) :
    countMaterials bs fluids =
      (fluidList fluids).foldl (tallyRecord .fluid)
        (bs.foldl (tallyRecord .block) []) := by
  cases fluids <;> rfl

theorem keysNodup_countMaterials (bs : List Rec) (fluids : JField) :
    keysNodup (countMaterials bs fluids) := by
  rw [countMaterials_eq]
  exact keysNodup_foldl _ _ _ (keysNodup_foldl _ _ _ (by simp [keysNodup]))

theorem lookupCount_countMaterials (bs : List Rec) (fluids : JField)
    (s : String) :
    lookupCount (countMaterials bs fluids) s =
      qualCount bs s + qualCount (fluidList fluids) s := by
  rw [countMaterials_eq, lookupCount_foldl, lookupCount_foldl]
  simp [lookupCount]

theorem sumCounts_countMaterials (bs : List Rec) (fluids : JField) :
    sumCounts (countMaterials bs fluids) =
      (bs.filter qualifies).length +
        ((fluidList fluids).filter qualifies).length := by
  rw [countMaterials_eq,
    sumCounts_foldl _ _ _ (keysNodup_foldl _ _ _ (by simp [keysNodup])),
    sumCounts_foldl _ _ _ (by simp [keysNodup])]
  simp [sumCounts]

/-! ## Claim C1 -/

/-- **C1**: for every imported document whose `blocks` field is an array, the
tally produced by the aggregation maps each name to the number of qualifying
records (name present, non-empty, lowercase form not containing "empty")
with exactly that name across the blocks array and the fluids array (when
the latter is present and an array); consequently the sum of all counts is
the number of qualifying block records plus the number of qualifying fluid
records. -/
theorem claim_C1_tally_counts (st : AppState) (fileName : String) (doc : Doc)
    (bs : List Rec) (h : doc.blocks = .arr bs) (s : String) :
    lookupCount (handleFileImport fileName (.parsed doc) st).materials s =
      qualCount bs s + qualCount (fluidList doc.fluids) s ∧
    sumCounts (handleFileImport fileName (.parsed doc) st).materials =
      (bs.filter qualifies).length +
        ((fluidList doc.fluids).filter qualifies).length := by
  have hmat : (handleFileImport fileName (.parsed doc) st).materials =
      countMaterials bs doc.fluids := by
    simp [handleFileImport, importLoaded, h]
  rw [hmat]
  exact ⟨lookupCount_countMaterials bs doc.fluids s,
    sumCounts_countMaterials bs doc.fluids⟩

/-- Witness for C1: scenario-1 input with an extra "air_empty" block and
fluids absent, checked for the name "stone". -/
theorem claim_C1_tally_counts_witness :
    (Doc.mk
        (.arr [⟨some "stone", 0, 0, 0, none⟩, ⟨some "dirt", 0, 1, 0, none⟩,
          ⟨some "stone", 1, 0, 0, none⟩, ⟨some "air_empty", 2, 0, 0, none⟩])
        .absent).blocks =
      .arr [⟨some "stone", 0, 0, 0, none⟩, ⟨some "dirt", 0, 1, 0, none⟩,
        ⟨some "stone", 1, 0, 0, none⟩, ⟨some "air_empty", 2, 0, 0, none⟩] ∧
    (lookupCount
        (handleFileImport "prefab.json"
          (.parsed
            (Doc.mk
              (.arr [⟨some "stone", 0, 0, 0, none⟩, ⟨some "dirt", 0, 1, 0, none⟩,
                ⟨some "stone", 1, 0, 0, none⟩, ⟨some "air_empty", 2, 0, 0, none⟩])
              .absent))
          ⟨"", "", [], [], []⟩).materials "stone" =
      qualCount
        [⟨some "stone", 0, 0, 0, none⟩, ⟨some "dirt", 0, 1, 0, none⟩,
          ⟨some "stone", 1, 0, 0, none⟩, ⟨some "air_empty", 2, 0, 0, none⟩]
        "stone" +
      qualCount
        (fluidList (Doc.mk
            (.arr [⟨some "stone", 0, 0, 0, none⟩, ⟨some "dirt", 0, 1, 0, none⟩,
              ⟨some "stone", 1, 0, 0, none⟩, ⟨some "air_empty", 2, 0, 0, none⟩])
            .absent).fluids) "stone" ∧
      sumCounts
        (handleFileImport "prefab.json"
          (.parsed
            (Doc.mk
              (.arr [⟨some "stone", 0, 0, 0, none⟩, ⟨some "dirt", 0, 1, 0, none⟩,
                ⟨some "stone", 1, 0, 0, none⟩, ⟨some "air_empty", 2, 0, 0, none⟩])
              .absent))
          ⟨"", "", [], [], []⟩).materials =
      ([⟨some "stone", 0, 0, 0, none⟩, ⟨some "dirt", 0, 1, 0, none⟩,
        ⟨some "stone", 1, 0, 0, none⟩,
        ⟨some "air_empty", 2, 0, 0, none⟩].filter qualifies).length +
      ((fluidList (Doc.mk
          (.arr [⟨some "stone", 0, 0, 0, none⟩, ⟨some "dirt", 0, 1, 0, none⟩,
            ⟨some "stone", 1, 0, 0, none⟩, ⟨some "air_empty", 2, 0, 0, none⟩])
          .absent).fluids).filter qualifies).length) :=
  ⟨rfl, claim_C1_tally_counts ⟨"", "", [], [], []⟩ "prefab.json" _ _ rfl "stone"⟩

/-! ## Claim C4 -/

/-- **C4**: when a name occurs (qualifying) in the blocks array, the tally of
an import whose `blocks` and `fluids` are both arrays has exactly one entry
for that name; its count is the total across both lists and its category is
`block`, the category of the list processed first. -/
theorem claim_C4_shared_name (st : AppState) (fileName : String) (doc : Doc)
    (bs fs : List Rec) (s : String) (hb : doc.blocks = .arr bs)
    (hf : doc.fluids = .arr fs)
    (hocc : bs.any (fun r => qualifies r && (r.name == some s)) = true) :
    (handleFileImport fileName (.parsed doc) st).materials.countP
        (fun p => p.1 == s) = 1 ∧
    lookupCount (handleFileImport fileName (.parsed doc) st).materials s =
      qualCount bs s + qualCount fs s ∧
    lookupType (handleFileImport fileName (.parsed doc) st).materials s =
      some .block := by
  have hmat : (handleFileImport fileName (.parsed doc) st).materials =
      countMaterials bs doc.fluids := by
    simp [handleFileImport, importLoaded, hb]
  rw [hmat]
  have htype : lookupType (countMaterials bs doc.fluids) s = some .block := by
    rw [countMaterials_eq, lookupType_foldl, lookupType_foldl]
    simp [lookupType, hocc]
  refine ⟨?_, ?_, htype⟩
  · apply countP_key_eq_one (keysNodup_countMaterials bs doc.fluids)
    unfold lookupType at htype
    cases hfind : (countMaterials bs doc.fluids).find? (fun p => p.1 == s) with
    | none => rw [hfind] at htype; simp at htype
    | some q => exact any_of_find?_eq_some hfind
  · rw [lookupCount_countMaterials, hf]
    rfl

/-- Witness for C4: scenario-5 input, one `water` block and one `water`
fluid. -/
theorem claim_C4_shared_name_witness :
    (Doc.mk (.arr [⟨some "water", 0, 1, 0, none⟩])
        (.arr [⟨some "water", 0, 1, 1, none⟩])).blocks =
      .arr [⟨some "water", 0, 1, 0, none⟩] ∧
    ([⟨some "water", 0, 1, 0, none⟩] : List Rec).any
        (fun r => qualifies r && (r.name == some "water")) = true ∧
    ((handleFileImport "prefab.json"
        (.parsed (Doc.mk (.arr [⟨some "water", 0, 1, 0, none⟩])
          (.arr [⟨some "water", 0, 1, 1, none⟩])))
        ⟨"", "", [], [], []⟩).materials.countP
          (fun p => p.1 == "water") = 1 ∧
      lookupCount (handleFileImport "prefab.json"
        (.parsed (Doc.mk (.arr [⟨some "water", 0, 1, 0, none⟩])
          (.arr [⟨some "water", 0, 1, 1, none⟩])))
        ⟨"", "", [], [], []⟩).materials "water" =
        qualCount [⟨some "water", 0, 1, 0, none⟩] "water" +
          qualCount [⟨some "water", 0, 1, 1, none⟩] "water" ∧
      lookupType (handleFileImport "prefab.json"
        (.parsed (Doc.mk (.arr [⟨some "water", 0, 1, 0, none⟩])
          (.arr [⟨some "water", 0, 1, 1, none⟩])))
        ⟨"", "", [], [], []⟩).materials "water" = some .block) :=
  ⟨rfl, by decide,
    claim_C4_shared_name ⟨"", "", [], [], []⟩ "prefab.json" _ _ _ "water" rfl rfl
      (by decide)⟩

/-! ## Claim C2 -/

theorem hashStep_eq (h : Int) (c : Nat) : hashStep h c = toInt32 (h * 31 + c) := by
  unfold hashStep toInt32
  omega

theorem natAbs_tmod_360 (a : Int) : (Int.tmod a 360).natAbs = a.natAbs % 360 := by
  cases a with
  | ofNat m => simp [Int.tmod]; omega
  | negSucc m => simp [Int.tmod]; omega

/-- The source's `(hash << 5) - hash` loop computes exactly the specified
`hash * 31 + charCode` recurrence under 32-bit wrap-around. -/
theorem nameHash_eq_specHash (s : String) : nameHash s = specHash s := by
  unfold nameHash specHash
  simp only [hashStep_eq]

/-- **C2**: the color produced by the hash function is the HSL color with
hue `abs(h) mod 360`, saturation `65 + (abs(h) mod 20)` and lightness
`45 + (abs(h) mod 15)`, where `h` folds the character codes by
`h = h * 31 + charCode` under 32-bit signed wrap-around; and equal names
yield equal colors. -/
theorem claim_C2_color_hash (name1 name2 : String) (h : name1 = name2) :
    generateColorFromName name1 = specColorFromName name1 ∧
    generateColorFromName name1 = generateColorFromName name2 := by
  subst h
  refine ⟨?_, rfl⟩
  show hslString (Int.tmod (nameHash name1) 360).natAbs
      (65 + (nameHash name1).natAbs % 20) (45 + (nameHash name1).natAbs % 15) =
    specColorFromName name1
  unfold specColorFromName
  rw [nameHash_eq_specHash, natAbs_tmod_360]

set_option maxRecDepth 100000 in
/-- Witness for C2 at the concrete name "stone" (whose color evaluates to
`hsl(13, 78%, 58%)`). -/
theorem claim_C2_color_hash_witness :
    "stone" = "stone" ∧
    (generateColorFromName "stone" = specColorFromName "stone" ∧
      generateColorFromName "stone" = generateColorFromName "stone") ∧
    generateColorFromName "stone" = "hsl(13, 78%, 58%)" :=
  ⟨rfl, claim_C2_color_hash "stone" "stone" rfl, by decide⟩

/-! ## Claim C8 -/

/-- **C8**: the displayed material sequence is non-increasing in count at
every adjacent pair. -/
theorem claim_C8_sorted_desc (m : Materials) :
    (sortedMaterials m).Chain' (fun a b => b.2.count ≤ a.2.count) := by
  have hp : (sortedMaterials m).Pairwise
      (fun a b : String × MaterialInfo =>
        (decide (b.2.count ≤ a.2.count)) = true) := by
    apply List.sorted_mergeSort
    · intro a b c h1 h2
      simp at h1 h2 ⊢
      omega
    · intro a b
      simp
      omega
  exact (hp.imp (fun h => by simpa using h)).chain'

/-! ## Claim C3 (corrected) -/

/-- Counterexample to C3 as stated: a schema error (parsed document without a
`blocks` array) does NOT reset the stored block list — with one previously
imported block the list stays non-empty, while the claim requires it to be
reset to empty. -/
theorem claim_C3_counterexample :
    (handleFileImport "bad.json" (.parsed (Doc.mk .absent .absent))
        (AppState.mk "old.json" "" [("stone", ⟨1, .block⟩)]
          [⟨some "stone", 0, 0, 0, none⟩] [])).blocks ≠ [] := by
  decide

/-- **C3 (amended)**: a parse failure clears both the tally map and the
stored block list; a schema error (missing or non-array `blocks`) clears the
tally map and sets the schema message but leaves the stored block list
unchanged. -/
theorem claim_C3_amended_error_state (st : AppState) (fileName msg : String)
    (doc : Doc) :
    ((handleFileImport fileName (.parseFail msg) st).materials = [] ∧
      (handleFileImport fileName (.parseFail msg) st).blocks = []) ∧
    (doc.blocks = .absent ∨ doc.blocks = .nonArray →
      (handleFileImport fileName (.parsed doc) st).materials = [] ∧
      (handleFileImport fileName (.parsed doc) st).blocks = st.blocks ∧
      (handleFileImport fileName (.parsed doc) st).error =
        "JSON must contain a \"blocks\" array") := by
  constructor
  · constructor <;> simp [handleFileImport, importLoaded]
  · rintro (h | h) <;>
      refine ⟨?_, ?_, ?_⟩ <;> simp [handleFileImport, importLoaded, h]

/-- Witness for the amended C3, at a state holding one previously imported
block and a document with no `blocks` field. -/
theorem claim_C3_amended_error_state_witness :
    ((Doc.mk .absent .absent).blocks = .absent ∨
      (Doc.mk .absent .absent).blocks = .nonArray) ∧
    ((handleFileImport "bad.json" (.parseFail "Unexpected end of JSON input")
        (AppState.mk "old.json" "" [("stone", ⟨1, .block⟩)]
          [⟨some "stone", 0, 0, 0, none⟩] [])).materials = [] ∧
      (handleFileImport "bad.json" (.parseFail "Unexpected end of JSON input")
        (AppState.mk "old.json" "" [("stone", ⟨1, .block⟩)]
          [⟨some "stone", 0, 0, 0, none⟩] [])).blocks = []) ∧
    ((handleFileImport "bad.json" (.parsed (Doc.mk .absent .absent))
        (AppState.mk "old.json" "" [("stone", ⟨1, .block⟩)]
          [⟨some "stone", 0, 0, 0, none⟩] [])).materials = [] ∧
      (handleFileImport "bad.json" (.parsed (Doc.mk .absent .absent))
        (AppState.mk "old.json" "" [("stone", ⟨1, .block⟩)]
          [⟨some "stone", 0, 0, 0, none⟩] [])).blocks =
        (AppState.mk "old.json" "" [("stone", ⟨1, .block⟩)]
          [⟨some "stone", 0, 0, 0, none⟩] []).blocks ∧
      (handleFileImport "bad.json" (.parsed (Doc.mk .absent .absent))
        (AppState.mk "old.json" "" [("stone", ⟨1, .block⟩)]
          [⟨some "stone", 0, 0, 0, none⟩] [])).error =
        "JSON must contain a \"blocks\" array") :=
  ⟨Or.inl rfl,
    (claim_C3_amended_error_state
      (AppState.mk "old.json" "" [("stone", ⟨1, .block⟩)]
        [⟨some "stone", 0, 0, 0, none⟩] [])
      "bad.json" "Unexpected end of JSON input" (Doc.mk .absent .absent)).1,
    (claim_C3_amended_error_state
      (AppState.mk "old.json" "" [("stone", ⟨1, .block⟩)]
        [⟨some "stone", 0, 0, 0, none⟩] [])
      "bad.json" "Unexpected end of JSON input" (Doc.mk .absent .absent)).2
      (Or.inl rfl)⟩

/-! ## Claim C9 (corrected) -/

/-- Counterexample to C9 as stated: the persistence effect for the tally map
skips the write when the new value is empty, so after a transition of the
in-memory tally to `{}` the stored entry still holds the old value instead
of the new one. -/
theorem claim_C9_counterexample :
    (saveMaterialsEffect []
        (StoredState.mk none none (some [("stone", ⟨1, .block⟩)]) none)).materials
      ≠ some [] := by
  decide

/-- **C9 (amended)**: each persistence effect writes the corresponding store
entry to the new in-memory value when that value is non-empty (for
`checkedItems`, once the initial load has completed), and leaves the store
completely unchanged when the new value is empty (blocks, colors,
materials). -/
theorem claim_C9_amended_persistence (store : StoredState) (blocks : List Rec)
    (colors : BlockColors) (mats : Materials)
    (checked : List (String × Bool)) :
    (blocks ≠ [] → (saveBlocksEffect blocks store).blocks = some blocks) ∧
    (blocks = [] → saveBlocksEffect blocks store = store) ∧
    (colors ≠ [] →
      (saveBlockColorsEffect colors store).blockColors = some colors) ∧
    (colors = [] → saveBlockColorsEffect colors store = store) ∧
    (mats ≠ [] → (saveMaterialsEffect mats store).materials = some mats) ∧
    (mats = [] → saveMaterialsEffect mats store = store) ∧
    (saveCheckedItemsEffect false checked store).checkedItems = some checked := by
  refine ⟨?_, ?_, ?_, ?_, ?_, ?_, ?_⟩ <;>
    first
      | (intro h;
          simp [saveBlocksEffect, saveBlockColorsEffect, saveMaterialsEffect,
            List.length_pos, h])
      | simp [saveCheckedItemsEffect]

/-- Witness for the amended C9: non-empty writes land in the store, the
empty materials transition leaves it untouched. -/
theorem claim_C9_amended_persistence_witness :
    ([(⟨some "stone", 0, 0, 0, none⟩ : Rec)] ≠ []) ∧
    (saveBlocksEffect [⟨some "stone", 0, 0, 0, none⟩]
        (StoredState.mk none none none none)).blocks =
      some [⟨some "stone", 0, 0, 0, none⟩] ∧
    (([("stone", (⟨1, .block⟩ : MaterialInfo))] : Materials) ≠ []) ∧
    (saveMaterialsEffect [("stone", ⟨1, .block⟩)]
        (StoredState.mk none none none none)).materials =
      some [("stone", ⟨1, .block⟩)] ∧
    saveMaterialsEffect []
        (StoredState.mk none none (some [("stone", ⟨1, .block⟩)]) none) =
      StoredState.mk none none (some [("stone", ⟨1, .block⟩)]) none ∧
    (saveCheckedItemsEffect false [("stone", true)]
        (StoredState.mk none none none none)).checkedItems =
      some [("stone", true)] :=
  ⟨by decide,
    (claim_C9_amended_persistence (StoredState.mk none none none none)
      [⟨some "stone", 0, 0, 0, none⟩] [] [] []).1 (by decide),
    by decide,
    (claim_C9_amended_persistence (StoredState.mk none none none none)
      [] [] [("stone", ⟨1, .block⟩)] []).2.2.2.2.1 (by decide),
    (claim_C9_amended_persistence
      (StoredState.mk none none (some [("stone", ⟨1, .block⟩)]) none)
      [] [] [] []).2.2.2.2.2.1 rfl,
    (claim_C9_amended_persistence (StoredState.mk none none none none)
      [] [] [] [("stone", true)]).2.2.2.2.2.2⟩

/-! ## Claim C10 -/

/-- **C10**: the "Total Blocks" stat of the Block Count tab is the raw length
of the imported blocks array — including records that the tally filters out —
and on an input consisting of one "air_empty" block it strictly exceeds the
sum of the tally counts. -/
theorem claim_C10_total_blocks (st : AppState) (fileName : String) (doc : Doc)
    (bs : List Rec) (h : doc.blocks = .arr bs) :
    totalBlocks (handleFileImport fileName (.parsed doc) st) = bs.length ∧
    totalBlocks (handleFileImport "empty.json"
        (.parsed (Doc.mk (.arr [⟨some "air_empty", 0, 0, 0, none⟩]) .absent))
        (AppState.mk "" "" [] [] [])) >
      sumCounts (handleFileImport "empty.json"
        (.parsed (Doc.mk (.arr [⟨some "air_empty", 0, 0, 0, none⟩]) .absent))
        (AppState.mk "" "" [] [] [])).materials := by
  constructor
  · simp [handleFileImport, importLoaded, h, totalBlocks]
  · decide

/-- Witness for C10 at the scenario-1 document extended by an "air_empty"
record. -/
theorem claim_C10_total_blocks_witness :
    (Doc.mk (.arr [⟨some "stone", 0, 0, 0, none⟩,
        ⟨some "air_empty", 1, 0, 0, none⟩]) .absent).blocks =
      .arr [⟨some "stone", 0, 0, 0, none⟩, ⟨some "air_empty", 1, 0, 0, none⟩] ∧
    (totalBlocks (handleFileImport "prefab.json"
        (.parsed (Doc.mk (.arr [⟨some "stone", 0, 0, 0, none⟩,
          ⟨some "air_empty", 1, 0, 0, none⟩]) .absent))
        (AppState.mk "" "" [] [] [])) =
      ([⟨some "stone", 0, 0, 0, none⟩,
        ⟨some "air_empty", 1, 0, 0, none⟩] : List Rec).length ∧
      totalBlocks (handleFileImport "empty.json"
          (.parsed (Doc.mk (.arr [⟨some "air_empty", 0, 0, 0, none⟩]) .absent))
          (AppState.mk "" "" [] [] [])) >
        sumCounts (handleFileImport "empty.json"
          (.parsed (Doc.mk (.arr [⟨some "air_empty", 0, 0, 0, none⟩]) .absent))
          (AppState.mk "" "" [] [] [])).materials) :=
  ⟨rfl,
    claim_C10_total_blocks (AppState.mk "" "" [] [] []) "prefab.json" _ _ rfl⟩

/-! ## Claim C5 -/

theorem foldl_min_le_init (l : List Int) (a : Int) : l.foldl min a ≤ a := by
  induction l generalizing a with
  | nil => exact le_refl a
  | cons x xs ih => exact le_trans (ih (min a x)) (min_le_left a x)

theorem foldl_min_le_mem (l : List Int) (a : Int) :
    ∀ y ∈ l, l.foldl min a ≤ y := by
  induction l generalizing a with
  | nil => intro y hy; simp at hy
  | cons x xs ih =>
    intro y hy
    rcases List.mem_cons.mp hy with rfl | hy'
    · exact le_trans (foldl_min_le_init xs (min a y)) (min_le_right a y)
    · exact ih (min a x) y hy'

theorem foldl_min_mem (l : List Int) (a : Int) :
    l.foldl min a = a ∨ l.foldl min a ∈ l := by
  induction l generalizing a with
  | nil => exact Or.inl rfl
  | cons x xs ih =>
    rcases ih (min a x) with h | h
    · rcases min_choice a x with hm | hm
      · exact Or.inl (by rw [List.foldl_cons, h, hm])
      · exact Or.inr (by rw [List.foldl_cons, h, hm]; exact List.mem_cons_self x xs)
    · exact Or.inr (List.mem_cons_of_mem x h)

theorem foldl_max_le_init (l : List Int) (a : Int) : a ≤ l.foldl max a := by
  induction l generalizing a with
  | nil => exact le_refl a
  | cons x xs ih => exact le_trans (le_max_left a x) (ih (max a x))

theorem foldl_max_le_mem (l : List Int) (a : Int) :
    ∀ y ∈ l, y ≤ l.foldl max a := by
  induction l generalizing a with
  | nil => intro y hy; simp at hy
  | cons x xs ih =>
    intro y hy
    rcases List.mem_cons.mp hy with rfl | hy'
    · exact le_trans (le_max_right a y) (foldl_max_le_init xs (max a y))
    · exact ih (max a x) y hy'

theorem foldl_max_mem (l : List Int) (a : Int) :
    l.foldl max a = a ∨ l.foldl max a ∈ l := by
  induction l generalizing a with
  | nil => exact Or.inl rfl
  | cons x xs ih =>
    rcases ih (max a x) with h | h
    · rcases max_choice a x with hm | hm
      · exact Or.inl (by rw [List.foldl_cons, h, hm])
      · exact Or.inr (by rw [List.foldl_cons, h, hm]; exact List.mem_cons_self x xs)
    · exact Or.inr (List.mem_cons_of_mem x h)

theorem mathMin_le {l : List Int} {y : Int} (hy : y ∈ l) : mathMin l ≤ y := by
  cases l with
  | nil => simp at hy
  | cons x xs =>
    rcases List.mem_cons.mp hy with rfl | hy'
    · exact foldl_min_le_init xs y
    · exact foldl_min_le_mem xs x y hy'

theorem le_mathMax {l : List Int} {y : Int} (hy : y ∈ l) : y ≤ mathMax l := by
  cases l with
  | nil => simp at hy
  | cons x xs =>
    rcases List.mem_cons.mp hy with rfl | hy'
    · exact foldl_max_le_init xs y
    · exact foldl_max_le_mem xs x y hy'

theorem mathMin_mem {l : List Int} (h : l ≠ []) : mathMin l ∈ l := by
  cases l with
  | nil => exact absurd rfl h
  | cons x xs =>
    rcases foldl_min_mem xs x with h' | h'
    · rw [mathMin, h']; exact List.mem_cons_self x xs
    · exact List.mem_cons_of_mem x h'

theorem mathMax_mem {l : List Int} (h : l ≠ []) : mathMax l ∈ l := by
  cases l with
  | nil => exact absurd rfl h
  | cons x xs =>
    rcases foldl_max_mem xs x with h' | h'
    · rw [mathMax, h']; exact List.mem_cons_self x xs
    · exact List.mem_cons_of_mem x h'

/-- **C5**: the global grid bounds are the minimum and maximum of `x` and of
`z` over ALL blocks regardless of layer — every block lies within the
bounds, and each bound is attained by some block — and the empty block list
yields the degenerate single cell (0,0)-(0,0). -/
theorem claim_C5_global_bounds (blocks : List Rec) :
    (blocks = [] → getGlobalGridBounds blocks = ⟨0, 0, 0, 0⟩) ∧
    (∀ b ∈ blocks,
      (getGlobalGridBounds blocks).minX ≤ b.x ∧
      b.x ≤ (getGlobalGridBounds blocks).maxX ∧
      (getGlobalGridBounds blocks).minZ ≤ b.z ∧
      b.z ≤ (getGlobalGridBounds blocks).maxZ) ∧
    (blocks ≠ [] →
      (∃ b ∈ blocks, b.x = (getGlobalGridBounds blocks).minX) ∧
      (∃ b ∈ blocks, b.x = (getGlobalGridBounds blocks).maxX) ∧
      (∃ b ∈ blocks, b.z = (getGlobalGridBounds blocks).minZ) ∧
      (∃ b ∈ blocks, b.z = (getGlobalGridBounds blocks).maxZ)) := by
  refine ⟨fun h => by subst h; rfl, ?_, ?_⟩
  · intro b hb
    have hne : (blocks.length == 0) = false := by
      cases blocks with
      | nil => simp at hb
      | cons c t => simp
    rw [getGlobalGridBounds, hne]
    simp only [Bool.false_eq_true, if_false]
    exact ⟨mathMin_le (List.mem_map_of_mem _ hb),
      le_mathMax (List.mem_map_of_mem _ hb),
      mathMin_le (List.mem_map_of_mem _ hb),
      le_mathMax (List.mem_map_of_mem _ hb)⟩
  · intro hne
    have hne' : (blocks.length == 0) = false := by
      cases blocks with
      | nil => exact absurd rfl hne
      | cons c t => simp
    have hmapx : blocks.map (·.x) ≠ [] := by
      intro h
      exact hne (List.map_eq_nil_iff.mp h)
    have hmapz : blocks.map (·.z) ≠ [] := by
      intro h
      exact hne (List.map_eq_nil_iff.mp h)
    rw [getGlobalGridBounds, hne']
    simp only [Bool.false_eq_true, if_false]
    refine ⟨?_, ?_, ?_, ?_⟩
    · rcases List.mem_map.mp (mathMin_mem hmapx) with ⟨b, hb, hbx⟩
      exact ⟨b, hb, hbx⟩
    · rcases List.mem_map.mp (mathMax_mem hmapx) with ⟨b, hb, hbx⟩
      exact ⟨b, hb, hbx⟩
    · rcases List.mem_map.mp (mathMin_mem hmapz) with ⟨b, hb, hbz⟩
      exact ⟨b, hb, hbz⟩
    · rcases List.mem_map.mp (mathMax_mem hmapz) with ⟨b, hb, hbz⟩
      exact ⟨b, hb, hbz⟩

/-- Witness for C5: scenario-6 blocks at (0,0,0) and (2,0,3), plus the empty
list. -/
theorem claim_C5_global_bounds_witness :
    (([] : List Rec) = [] ∧ getGlobalGridBounds [] = ⟨0, 0, 0, 0⟩) ∧
    ((⟨some "stone", 0, 0, 0, none⟩ : Rec) ∈
        ([⟨some "stone", 0, 0, 0, none⟩, ⟨some "dirt", 2, 0, 3, none⟩] :
          List Rec) ∧
      (getGlobalGridBounds [⟨some "stone", 0, 0, 0, none⟩,
          ⟨some "dirt", 2, 0, 3, none⟩]).minX ≤ (0 : Int) ∧
      (0 : Int) ≤ (getGlobalGridBounds [⟨some "stone", 0, 0, 0, none⟩,
          ⟨some "dirt", 2, 0, 3, none⟩]).maxX ∧
      (getGlobalGridBounds [⟨some "stone", 0, 0, 0, none⟩,
          ⟨some "dirt", 2, 0, 3, none⟩]).minZ ≤ (0 : Int) ∧
      (0 : Int) ≤ (getGlobalGridBounds [⟨some "stone", 0, 0, 0, none⟩,
          ⟨some "dirt", 2, 0, 3, none⟩]).maxZ) ∧
    (([⟨some "stone", 0, 0, 0, none⟩, ⟨some "dirt", 2, 0, 3, none⟩] :
        List Rec) ≠ [] ∧
      (∃ b ∈ ([⟨some "stone", 0, 0, 0, none⟩, ⟨some "dirt", 2, 0, 3, none⟩] :
          List Rec),
        b.x = (getGlobalGridBounds [⟨some "stone", 0, 0, 0, none⟩,
          ⟨some "dirt", 2, 0, 3, none⟩]).minX)) :=
  ⟨⟨rfl, (claim_C5_global_bounds []).1 rfl⟩,
    ⟨by decide,
      (claim_C5_global_bounds
        [⟨some "stone", 0, 0, 0, none⟩, ⟨some "dirt", 2, 0, 3, none⟩]).2.1
        ⟨some "stone", 0, 0, 0, none⟩ (by decide)⟩,
    ⟨by decide,
      ((claim_C5_global_bounds
        [⟨some "stone", 0, 0, 0, none⟩, ⟨some "dirt", 2, 0, 3, none⟩]).2.2
        (by decide)).1⟩⟩

/-! ## Claim C7 (corrected) -/

theorem hslString_ne_empty (h s l : Nat) : hslString h s l ≠ "" := by
  intro heq
  have hd := congrArg String.data heq
  simp [hslString] at hd

theorem generateColorFromName_ne_empty (s : String) :
    generateColorFromName s ≠ "" :=
  hslString_ne_empty _ _ _

theorem colorTruthy_eq_colorGet (m : BlockColors) (s : String) :
    colorTruthy m s =
      (match colorGet m s with
       | none => false
       | some v => !(v == "")) := by
  unfold colorTruthy colorGet
  cases hf : m.find? (fun p => p.1 == s) <;> simp [hf]

theorem colorGet_colorSet (m : BlockColors) (k v s : String) :
    colorGet (colorSet m k v) s = if s = k then some v else colorGet m s := by
  unfold colorGet colorSet
  have hkeyfix : ∀ p : String × String,
      ((fun p : String × String => if p.1 == k then ((p.1 : String), v) else p) p).1
        = p.1 := by
    intro p
    by_cases h : (p.1 == k) = true <;> simp [h]
  by_cases hmem : m.any (fun p => p.1 == k) = true
  · rw [if_pos hmem, find?_map_keyfix _ hkeyfix]
    by_cases hsk : s = k
    · subst hsk
      have hsome := find?_isSome_of_any hmem
      cases hfind : m.find? (fun p => p.1 == s) with
      | none => rw [hfind] at hsome; simp at hsome
      | some q =>
        have hqk : q.1 = s := by
          have := List.find?_some hfind
          simpa using this
        simp [hfind, hqk]
    · cases hfind : m.find? (fun p => p.1 == s) with
      | none => simp [hfind, hsk]
      | some q =>
        have hqk : q.1 = s := by
          have := List.find?_some hfind
          simpa using this
        have : ¬q.1 = k := by rw [hqk]; exact hsk
        simp [hfind, hsk, this]
  · rw [if_neg hmem, List.find?_append]
    by_cases hsk : s = k
    · subst hsk
      have hfind : m.find? (fun p => p.1 == s) = none := by
        cases hfind : m.find? (fun p => p.1 == s) with
        | none => rfl
        | some q => exact absurd (any_of_find?_eq_some hfind) hmem
      simp [hfind]
    · cases hfind : m.find? (fun p => p.1 == s) with
      | none => simp [hfind, Ne.symm hsk, hsk]
      | some q => simp [hfind, hsk]

/-- A step on a record not named `s` leaves the entry for `s` unchanged. -/
theorem colorGet_colorRecord_other {b : Rec} {s : String}
    (h : b.name ≠ some s) (m : BlockColors) :
    colorGet (colorRecord m b) s = colorGet m s := by
  unfold colorRecord
  cases hn : b.name with
  | none => rfl
  | some s0 =>
    have hs0 : s0 ≠ s := by
      intro he
      exact h (by rw [hn, he])
    by_cases h1 : (s0 == "") = true
    · simp [h1]
    · simp only [h1, Bool.false_eq_true, if_false]
      by_cases h2 : colorTruthy m s0 = true
      · simp [h2]
      · simp only [h2, Bool.false_eq_true, if_false]
        rw [colorGet_colorSet]
        simp [Ne.symm hs0]

/-- A step never disturbs an entry whose color is already truthy. -/
theorem colorGet_colorRecord_truthy {m : BlockColors} {s : String}
    (h : colorTruthy m s = true) (b : Rec) :
    colorGet (colorRecord m b) s = colorGet m s := by
  cases hn : b.name with
  | none => unfold colorRecord; rw [hn]
  | some s0 =>
    by_cases hs0 : s0 = s
    · subst hs0
      unfold colorRecord
      rw [hn]
      by_cases h1 : (s0 == "") = true
      · simp [h1]
      · simp [h1, h]
    · exact colorGet_colorRecord_other (by rw [hn]; intro he; exact hs0 (by injection he)) m

theorem ensureBlockColors_preserve (blocks : List Rec) (m : BlockColors)
    (s : String) (h : colorTruthy m s = true) :
    colorGet (ensureBlockColors m blocks) s = colorGet m s ∧
    colorTruthy (ensureBlockColors m blocks) s = true := by
  induction blocks generalizing m with
  | nil => exact ⟨rfl, h⟩
  | cons b t ih =>
    have hstep : colorGet (colorRecord m b) s = colorGet m s :=
      colorGet_colorRecord_truthy h b
    have htr : colorTruthy (colorRecord m b) s = true := by
      rw [colorTruthy_eq_colorGet, hstep, ← colorTruthy_eq_colorGet]
      exact h
    rcases ih (colorRecord m b) htr with ⟨h1, h2⟩
    exact ⟨by rw [show ensureBlockColors m (b :: t) =
        ensureBlockColors (colorRecord m b) t from rfl, h1, hstep], by
      rw [show ensureBlockColors m (b :: t) =
        ensureBlockColors (colorRecord m b) t from rfl]
      exact h2⟩

theorem ensureBlockColors_untouched (blocks : List Rec) (m : BlockColors)
    (s : String) (h : ∀ b ∈ blocks, b.name ≠ some s) :
    colorGet (ensureBlockColors m blocks) s = colorGet m s := by
  induction blocks generalizing m with
  | nil => rfl
  | cons b t ih =>
    have hb : b.name ≠ some s := h b (List.mem_cons_self b t)
    have ht : ∀ b' ∈ t, b'.name ≠ some s :=
      fun b' hb' => h b' (List.mem_cons_of_mem b hb')
    rw [show ensureBlockColors m (b :: t) =
      ensureBlockColors (colorRecord m b) t from rfl, ih _ ht,
      colorGet_colorRecord_other hb]

theorem ensureBlockColors_assigns (blocks : List Rec) (m : BlockColors)
    (s : String) (hf : colorTruthy m s = false) (hs : s ≠ "")
    (hocc : ∃ b ∈ blocks, b.name = some s) :
    colorGet (ensureBlockColors m blocks) s =
      some (generateColorFromName s) := by
  induction blocks generalizing m with
  | nil => rcases hocc with ⟨b, hb, _⟩; simp at hb
  | cons b t ih =>
    rw [show ensureBlockColors m (b :: t) =
      ensureBlockColors (colorRecord m b) t from rfl]
    by_cases hbn : b.name = some s
    · have hstep : colorRecord m b = colorSet m s (generateColorFromName s) := by
        unfold colorRecord
        rw [hbn]
        have h1 : (s == "") = false := by simpa using hs
        simp [h1, hf]
      have hget : colorGet (colorRecord m b) s =
          some (generateColorFromName s) := by
        rw [hstep, colorGet_colorSet]
        simp
      have htr : colorTruthy (colorRecord m b) s = true := by
        rw [colorTruthy_eq_colorGet, hget]
        simpa using generateColorFromName_ne_empty s
      rw [(ensureBlockColors_preserve t (colorRecord m b) s htr).1, hget]
    · rcases hocc with ⟨b', hb', hb'n⟩
      rcases List.mem_cons.mp hb' with rfl | hb't
      · exact absurd hb'n hbn
      · have hf' : colorTruthy (colorRecord m b) s = false := by
          rw [colorTruthy_eq_colorGet, colorGet_colorRecord_other hbn,
            ← colorTruthy_eq_colorGet]
          exact hf
        exact ih (colorRecord m b) hf' ⟨b', hb't, hb'n⟩

set_option maxRecDepth 100000 in
/-- Counterexample to C7 as stated: the priming step checks JS truthiness,
not key presence, so a name already present in the prior map but mapped to
the empty string is overwritten with the hash color, violating "each name
already present keeps exactly its previous color" for that prior map. -/
theorem claim_C7_counterexample :
    colorGet (ensureBlockColors [("stone", "")]
        [⟨some "stone", 0, 0, 0, none⟩]) "stone" ≠
      colorGet [("stone", "")] "stone" := by
  decide

/-- **C7 (amended)**: the color-priming step preserves every entry whose
existing color is a non-empty string; a name whose current color is falsy
(absent or the empty string) is assigned the deterministic hash color when
it occurs with a truthy name in the imported list; entries of names that do
not occur in the list are left unchanged. -/
theorem claim_C7_amended_colors (prior : BlockColors) (blocks : List Rec)
    (s : String) :
    (colorTruthy prior s = true →
      colorGet (ensureBlockColors prior blocks) s = colorGet prior s) ∧
    (colorTruthy prior s = false → s ≠ "" → (∃ b ∈ blocks, b.name = some s) →
      colorGet (ensureBlockColors prior blocks) s =
        some (generateColorFromName s)) ∧
    ((∀ b ∈ blocks, b.name ≠ some s) →
      colorGet (ensureBlockColors prior blocks) s = colorGet prior s) :=
  ⟨fun h => (ensureBlockColors_preserve blocks prior s h).1,
    fun hf hs hocc => ensureBlockColors_assigns blocks prior s hf hs hocc,
    fun h => ensureBlockColors_untouched blocks prior s h⟩

set_option maxRecDepth 1000000 in
/-- Witness for the amended C7: a prior map with a kept "dirt" color and an
empty "stone" color, imported blocks naming both plus a never-occurring
"water". -/
theorem claim_C7_amended_colors_witness :
    (colorTruthy [("stone", ""), ("dirt", "hsl(255, 80%, 45%)")] "dirt" =
        true ∧
      colorGet (ensureBlockColors [("stone", ""), ("dirt", "hsl(255, 80%, 45%)")]
          [⟨some "stone", 0, 0, 0, none⟩, ⟨some "dirt", 1, 0, 0, none⟩])
          "dirt" =
        colorGet [("stone", ""), ("dirt", "hsl(255, 80%, 45%)")] "dirt") ∧
    (colorTruthy [("stone", ""), ("dirt", "hsl(255, 80%, 45%)")] "stone" =
        false ∧
      colorGet (ensureBlockColors [("stone", ""), ("dirt", "hsl(255, 80%, 45%)")]
          [⟨some "stone", 0, 0, 0, none⟩, ⟨some "dirt", 1, 0, 0, none⟩])
          "stone" =
        some (generateColorFromName "stone")) ∧
    colorGet (ensureBlockColors [("stone", ""), ("dirt", "hsl(255, 80%, 45%)")]
        [⟨some "stone", 0, 0, 0, none⟩, ⟨some "dirt", 1, 0, 0, none⟩])
        "water" =
      colorGet [("stone", ""), ("dirt", "hsl(255, 80%, 45%)")] "water" :=
  ⟨⟨by decide,
      (claim_C7_amended_colors [("stone", ""), ("dirt", "hsl(255, 80%, 45%)")]
        [⟨some "stone", 0, 0, 0, none⟩, ⟨some "dirt", 1, 0, 0, none⟩]
        "dirt").1 (by decide)⟩,
    ⟨by decide,
      (claim_C7_amended_colors [("stone", ""), ("dirt", "hsl(255, 80%, 45%)")]
        [⟨some "stone", 0, 0, 0, none⟩, ⟨some "dirt", 1, 0, 0, none⟩]
        "stone").2.1 (by decide) (by decide) ⟨⟨some "stone", 0, 0, 0, none⟩,
          by decide, rfl⟩⟩,
    (claim_C7_amended_colors [("stone", ""), ("dirt", "hsl(255, 80%, 45%)")]
        [⟨some "stone", 0, 0, 0, none⟩, ⟨some "dirt", 1, 0, 0, none⟩]
        "water").2.2 (by decide)⟩

/-! ## Claim C6: decimal strings -/

theorem digitsSpec_lt {n : Nat} (h : n < 10) :
    digitsSpec n = [Nat.digitChar n] := by
  rw [digitsSpec]
  simp [h]

theorem digitsSpec_ge {n : Nat} (h : ¬n < 10) :
    digitsSpec n = digitsSpec (n / 10) ++ [Nat.digitChar (n % 10)] := by
  rw [digitsSpec]
  simp [h]

theorem toDigitsCore_eq (fuel : Nat) : ∀ (n : Nat) (ds : List Char),
    n < fuel → Nat.toDigitsCore 10 fuel n ds = digitsSpec n ++ ds := by
  induction fuel with
  | zero => intro n ds h; omega
  | succ fuel ih =>
    intro n ds h
    rw [Nat.toDigitsCore]
    by_cases h10 : n / 10 = 0
    · have hlt : n < 10 := by omega
      simp [h10, digitsSpec_lt hlt, Nat.mod_eq_of_lt hlt]
    · have hge : ¬n < 10 := fun hlt => h10 (Nat.div_eq_of_lt hlt)
      have hdiv : n / 10 < n := Nat.div_lt_self (by omega) (by omega)
      simp only [h10, if_false]
      rw [ih (n / 10) _ (by omega), digitsSpec_ge hge, List.append_assoc]
      rfl

theorem toDigits_eq (n : Nat) : Nat.toDigits 10 n = digitsSpec n := by
  rw [Nat.toDigits, toDigitsCore_eq (n + 1) n [] (Nat.lt_succ_self n),
    List.append_nil]

theorem nat_repr_eq (n : Nat) : Nat.repr n = (digitsSpec n).asString := by
  rw [Nat.repr, toDigits_eq]

theorem charVal_digitChar : ∀ d, d < 10 → charVal (Nat.digitChar d) = d := by
  decide

theorem digitChar_isDigit : ∀ d, d < 10 → (Nat.digitChar d).isDigit = true := by
  decide

theorem digitsSpec_ne_nil (n : Nat) : digitsSpec n ≠ [] := by
  by_cases h : n < 10
  · rw [digitsSpec_lt h]
    simp
  · rw [digitsSpec_ge h]
    simp

theorem digitsSpec_isDigit (n : Nat) : ∀ c ∈ digitsSpec n, c.isDigit = true := by
  induction n using Nat.strong_induction_on with
  | _ n ih =>
    by_cases h : n < 10
    · rw [digitsSpec_lt h]
      intro c hc
      rw [List.mem_singleton.mp hc]
      exact digitChar_isDigit n h
    · rw [digitsSpec_ge h]
      intro c hc
      rcases List.mem_append.mp hc with hc' | hc'
      · exact ih (n / 10) (Nat.div_lt_self (by omega) (by omega)) c hc'
      · rw [List.mem_singleton.mp hc']
        exact digitChar_isDigit (n % 10) (Nat.mod_lt n (by omega))

theorem digitsSpec_foldl (n : Nat) : ∀ a : Nat,
    (digitsSpec n).foldl (fun acc c => acc * 10 + charVal c) a =
      a * 10 ^ (digitsSpec n).length + n := by
  induction n using Nat.strong_induction_on with
  | _ n ih =>
    intro a
    by_cases h : n < 10
    · rw [digitsSpec_lt h]
      simp [charVal_digitChar n h]
    · rw [digitsSpec_ge h, List.foldl_append, List.length_append,
        ih (n / 10) (Nat.div_lt_self (by omega) (by omega)) a]
      simp only [List.foldl_cons, List.foldl_nil, List.length_cons,
        List.length_nil]
      rw [charVal_digitChar (n % 10) (Nat.mod_lt n (by omega))]
      calc (a * 10 ^ (digitsSpec (n / 10)).length + n / 10) * 10 + n % 10
          = a * (10 ^ (digitsSpec (n / 10)).length * 10) +
              (10 * (n / 10) + n % 10) := by ring
        _ = a * 10 ^ ((digitsSpec (n / 10)).length + (0 + 1)) + n := by
            rw [Nat.div_add_mod, pow_succ]

theorem digitsSpec_injective {m n : Nat} (h : digitsSpec m = digitsSpec n) :
    m = n := by
  have hm := digitsSpec_foldl m 0
  have hn := digitsSpec_foldl n 0
  rw [h] at hm
  omega

theorem nat_repr_injective {m n : Nat} (h : Nat.repr m = Nat.repr n) :
    m = n := by
  rw [nat_repr_eq, nat_repr_eq] at h
  exact digitsSpec_injective (congrArg String.data h)

theorem asString_data (l : List Char) : (List.asString l).data = l := rfl

theorem intToString_ofNat (m : Nat) :
    toString (Int.ofNat m) = Nat.repr m := rfl

theorem intToString_negSucc (m : Nat) :
    toString (Int.negSucc m) = "-" ++ Nat.repr (m + 1) := rfl

theorem isDigit_ne_comma {c : Char} (h : c.isDigit = true) : c ≠ ',' := by
  intro he
  subst he
  simp [Char.isDigit] at h

theorem isDigit_ne_dash {c : Char} (h : c.isDigit = true) : c ≠ '-' := by
  intro he
  subst he
  simp [Char.isDigit] at h

theorem comma_not_mem_intToString (i : Int) : ',' ∉ (toString i).data := by
  cases i with
  | ofNat m =>
    rw [intToString_ofNat, nat_repr_eq]
    intro hc
    exact isDigit_ne_comma (digitsSpec_isDigit m ',' hc) rfl
  | negSucc m =>
    rw [intToString_negSucc, nat_repr_eq]
    intro hc
    rw [String.data_append] at hc
    rcases List.mem_append.mp hc with hc' | hc'
    · simp at hc'
    · exact isDigit_ne_comma (digitsSpec_isDigit (m + 1) ',' hc') rfl

theorem intToString_injective {i j : Int} (h : toString i = toString j) :
    i = j := by
  cases i with
  | ofNat m =>
    cases j with
    | ofNat n =>
      rw [intToString_ofNat, intToString_ofNat] at h
      rw [nat_repr_injective h]
    | negSucc n =>
      rw [intToString_ofNat, intToString_negSucc] at h
      have hd := congrArg String.data h
      rw [nat_repr_eq, String.data_append, nat_repr_eq] at hd
      cases hde : digitsSpec m with
      | nil => exact absurd hde (digitsSpec_ne_nil m)
      | cons c cs =>
        rw [hde] at hd
        have hc : c = '-' := by
          have : c :: cs = '-' :: (digitsSpec (n + 1)) := by
            simpa [asString_data] using hd
          exact (List.cons.injEq _ _ _ _ ▸ this).1
        have : c.isDigit = true :=
          digitsSpec_isDigit m c (by rw [hde]; exact List.mem_cons_self c cs)
        exact absurd hc (isDigit_ne_dash this)
  | negSucc n =>
    cases j with
    | ofNat m =>
      rw [intToString_negSucc, intToString_ofNat] at h
      have hd := congrArg String.data h
      rw [nat_repr_eq, String.data_append, nat_repr_eq] at hd
      cases hde : digitsSpec m with
      | nil => exact absurd hde (digitsSpec_ne_nil m)
      | cons c cs =>
        rw [hde] at hd
        have hc : c = '-' := by
          have : '-' :: (digitsSpec (n + 1)) = c :: cs := by
            simpa [asString_data] using hd
          exact ((List.cons.injEq _ _ _ _ ▸ this).1).symm
        have : c.isDigit = true :=
          digitsSpec_isDigit m c (by rw [hde]; exact List.mem_cons_self c cs)
        exact absurd hc (isDigit_ne_dash this)
    | negSucc m =>
      rw [intToString_negSucc, intToString_negSucc] at h
      have hd := congrArg String.data h
      rw [String.data_append, String.data_append, nat_repr_eq,
        nat_repr_eq] at hd
      have : digitsSpec (n + 1) = digitsSpec (m + 1) := by
        simpa [asString_data] using hd
      have h' := digitsSpec_injective this
      rw [show n = m from by omega]

theorem append_comma_inj : ∀ (a1 : List Char) {b1 : List Char}
    (a2 : List Char) {b2 : List Char}, ',' ∉ a1 → ',' ∉ a2 →
    a1 ++ ',' :: b1 = a2 ++ ',' :: b2 → a1 = a2 ∧ b1 = b2 := by
  intro a1
  induction a1 with
  | nil =>
    intro b1 a2 b2 _ h2 heq
    cases a2 with
    | nil => simpa using heq
    | cons c t =>
      have : ',' = c := by simpa using (List.cons.injEq _ _ _ _ ▸ heq).1
      exact absurd (this ▸ List.mem_cons_self c t) h2
  | cons c t ih =>
    intro b1 a2 b2 h1 h2 heq
    cases a2 with
    | nil =>
      have : c = ',' := by simpa using (List.cons.injEq _ _ _ _ ▸ heq).1
      exact absurd (this ▸ List.mem_cons_self c t) h1
    | cons c' t' =>
      simp only [List.cons_append, List.cons.injEq] at heq
      rcases heq with ⟨hc, ht⟩
      have h1' : ',' ∉ t := fun hm => h1 (List.mem_cons_of_mem c hm)
      have h2' : ',' ∉ t' := fun hm => h2 (List.mem_cons_of_mem c' hm)
      rcases ih t' h1' h2' ht with ⟨hta, htb⟩
      exact ⟨by rw [hc, hta], htb⟩

/-- The JS template-literal key `` `${x},${z}` `` is a faithful (injective)
encoding of the coordinate pair: decimal integer representations contain no
comma, so distinct pairs always get distinct keys. -/
theorem cellKey_injective {x1 z1 x2 z2 : Int}
    (h : cellKey x1 z1 = cellKey x2 z2) : x1 = x2 ∧ z1 = z2 := by
  unfold cellKey at h
  have hd := congrArg String.data h
  rw [String.data_append, String.data_append, String.data_append,
    String.data_append] at hd
  have hd' : (toString x1).data ++ ',' :: (toString z1).data =
      (toString x2).data ++ ',' :: (toString z2).data := by
    simpa using hd
  rcases append_comma_inj (toString x1).data (toString x2).data
      (comma_not_mem_intToString x1) (comma_not_mem_intToString x2) hd' with
    ⟨hx, hz⟩
  exact ⟨intToString_injective (String.ext hx), intToString_injective (String.ext hz)⟩

/-! ## Claim C6: the grid map -/

theorem mapGet_mapSet (m : GridMap) (k : String) (v : Rec) (s : String) :
    mapGet (mapSet m k v) s = if s = k then some v else mapGet m s := by
  unfold mapGet mapSet
  have hkeyfix : ∀ p : String × Rec,
      ((fun p : String × Rec => if p.1 == k then ((p.1 : String), v) else p) p).1
        = p.1 := by
    intro p
    by_cases h : (p.1 == k) = true <;> simp [h]
  by_cases hmem : m.any (fun p => p.1 == k) = true
  · rw [if_pos hmem, find?_map_keyfix _ hkeyfix]
    by_cases hsk : s = k
    · subst hsk
      have hsome := find?_isSome_of_any hmem
      cases hfind : m.find? (fun p => p.1 == s) with
      | none => rw [hfind] at hsome; simp at hsome
      | some q =>
        have hqk : q.1 = s := by
          have := List.find?_some hfind
          simpa using this
        simp [hfind, hqk]
    · cases hfind : m.find? (fun p => p.1 == s) with
      | none => simp [hfind, hsk]
      | some q =>
        have hqk : q.1 = s := by
          have := List.find?_some hfind
          simpa using this
        have : ¬q.1 = k := by rw [hqk]; exact hsk
        simp [hfind, hsk, this]
  · rw [if_neg hmem, List.find?_append]
    by_cases hsk : s = k
    · subst hsk
      have hfind : m.find? (fun p => p.1 == s) = none := by
        cases hfind : m.find? (fun p => p.1 == s) with
        | none => rfl
        | some q => exact absurd (any_of_find?_eq_some hfind) hmem
      simp [hfind]
    · cases hfind : m.find? (fun p => p.1 == s) with
      | none => simp [hfind, Ne.symm hsk, hsk]
      | some q => simp [hfind, hsk]

theorem any_key_iff_mem {α : Type} (m : List (String × α)) (k : String) :
    m.any (fun p => p.1 == k) = true ↔ k ∈ m.map Prod.fst := by
  rw [List.any_eq_true]
  constructor
  · rintro ⟨p, hp, hpk⟩
    exact List.mem_map.mpr ⟨p, hp, by simpa using hpk⟩
  · intro h
    rcases List.mem_map.mp h with ⟨p, hp, hpk⟩
    exact ⟨p, hp, by simp [hpk]⟩

theorem keys_mapSet (m : GridMap) (k : String) (v : Rec) :
    (mapSet m k v).map Prod.fst =
      if m.any (fun p => p.1 == k) then m.map Prod.fst
      else m.map Prod.fst ++ [k] := by
  unfold mapSet
  by_cases hmem : m.any (fun p => p.1 == k) = true
  · rw [if_pos hmem, if_pos hmem, List.map_map]
    apply List.map_congr_left
    intro p _
    by_cases h : p.1 = k <;> simp [h]
  · rw [if_neg hmem, if_neg hmem, List.map_append]
    rfl

theorem mem_keys_mapSet (m : GridMap) (k : String) (v : Rec) (a : String) :
    a ∈ (mapSet m k v).map Prod.fst ↔ a ∈ m.map Prod.fst ∨ a = k := by
  rw [keys_mapSet]
  by_cases hmem : m.any (fun p => p.1 == k) = true
  · rw [if_pos hmem]
    constructor
    · exact Or.inl
    · rintro (h | rfl)
      · exact h
      · exact (any_key_iff_mem m a).mp hmem
  · rw [if_neg hmem]
    simp

theorem keysNodup_mapSet {m : GridMap} {k : String} {v : Rec}
    (hnd : keysNodup m) : keysNodup (mapSet m k v) := by
  unfold keysNodup
  rw [keys_mapSet]
  by_cases hmem : m.any (fun p => p.1 == k) = true
  · rw [if_pos hmem]
    exact hnd
  · rw [if_neg hmem, List.nodup_append]
    refine ⟨hnd, List.nodup_singleton k, ?_⟩
    intro a ha hb
    simp at hb
    subst hb
    exact (by simpa [any_key_iff_mem] using hmem : a ∉ m.map Prod.fst) ha

theorem length_mapSet (m : GridMap) (k : String) (v : Rec) :
    (mapSet m k v).length =
      if m.any (fun p => p.1 == k) then m.length else m.length + 1 := by
  unfold mapSet
  by_cases hmem : m.any (fun p => p.1 == k) = true <;> simp [hmem]

theorem getLast?_cons_or {α : Type} (a : α) (l : List α) :
    (a :: l).getLast? = l.getLast?.or (some a) := by
  cases l with
  | nil => rfl
  | cons b t =>
    rw [List.getLast?_cons_cons]
    have : (b :: t).getLast?.isSome := by
      rw [List.getLast?_isSome]
      simp
    cases hx : (b :: t).getLast? with
    | none => rw [hx] at this; simp at this
    | some y => rfl

theorem mapGet_gridFold (l : List Rec) (m : GridMap) (k : String) :
    mapGet (l.foldl (fun acc b => mapSet acc (cellKey b.x b.z) b) m) k =
      ((l.filter (fun b => cellKey b.x b.z == k)).getLast?).or (mapGet m k) := by
  induction l generalizing m with
  | nil => simp
  | cons b t ih =>
    rw [List.foldl_cons, ih, List.filter_cons]
    by_cases hb : (cellKey b.x b.z == k) = true
    · rw [if_pos hb, getLast?_cons_or, Option.or_assoc]
      have hk : k = cellKey b.x b.z := by
        have := (beq_iff_eq).mp hb
        exact this.symm
      rw [mapGet_mapSet, if_pos hk]
      cases (t.filter (fun b => cellKey b.x b.z == k)).getLast? <;> rfl
    · rw [if_neg hb, mapGet_mapSet]
      have hk : ¬k = cellKey b.x b.z := by
        intro he
        exact hb (by simp [he])
      rw [if_neg hk]

theorem mem_keys_gridFold (l : List Rec) (m : GridMap) (a : String) :
    a ∈ (l.foldl (fun acc b => mapSet acc (cellKey b.x b.z) b) m).map Prod.fst ↔
      a ∈ m.map Prod.fst ∨ a ∈ l.map (fun b => cellKey b.x b.z) := by
  induction l generalizing m with
  | nil => simp
  | cons b t ih =>
    rw [List.foldl_cons, ih, mem_keys_mapSet]
    simp only [List.map_cons, List.mem_cons]
    constructor
    · rintro ((h | h) | h)
      · exact Or.inl h
      · exact Or.inr (Or.inl h)
      · exact Or.inr (Or.inr h)
    · rintro (h | h | h)
      · exact Or.inl (Or.inl h)
      · exact Or.inl (Or.inr h)
      · exact Or.inr h

theorem keysNodup_gridFold (l : List Rec) (m : GridMap) (hnd : keysNodup m) :
    keysNodup (l.foldl (fun acc b => mapSet acc (cellKey b.x b.z) b) m) := by
  induction l generalizing m with
  | nil => exact hnd
  | cons b t ih => exact ih _ (keysNodup_mapSet hnd)

theorem toFinset_map_eq_image {α β : Type} [DecidableEq α] [DecidableEq β]
    (f : α → β) (l : List α) :
    (l.map f).toFinset = l.toFinset.image f := by
  ext b
  simp

theorem countP_key_le_one {α : Type} {m : List (String × α)} (k : String)
    (hnd : keysNodup m) : m.countP (fun p => p.1 == k) ≤ 1 := by
  by_cases hmem : m.any (fun p => p.1 == k) = true
  · rw [countP_key_eq_one hnd hmem]
  · rw [countP_key_eq_zero]
    · omega
    · intro p hp hpk
      have := (List.any_eq_false.mp (Bool.eq_false_iff.mpr hmem)) p hp
      simp [hpk] at this

/-- The uncurried cell-key function is injective. -/
theorem cellKeyPair_injective :
    Function.Injective (fun pr : Int × Int => cellKey pr.1 pr.2) := by
  rintro ⟨x1, z1⟩ ⟨x2, z2⟩ h
  rcases cellKey_injective h with ⟨hx, hz⟩
  simp only [Prod.mk.injEq]
  exact ⟨hx, hz⟩

theorem length_getBlockGridMap (l : List Rec) :
    (getBlockGridMap l).length = distinctCells l := by
  have hnd : keysNodup (getBlockGridMap l) :=
    keysNodup_gridFold l [] (by simp [keysNodup])
  have hlen : (getBlockGridMap l).length =
      ((getBlockGridMap l).map Prod.fst).length := by
    rw [List.length_map]
  have hcard : ((getBlockGridMap l).map Prod.fst).length =
      ((getBlockGridMap l).map Prod.fst).toFinset.card := by
    rw [List.card_toFinset, List.Nodup.dedup hnd]
  have hkeys : ((getBlockGridMap l).map Prod.fst).toFinset =
      (l.map (fun b => cellKey b.x b.z)).toFinset := by
    ext a
    rw [List.mem_toFinset, List.mem_toFinset]
    have := mem_keys_gridFold l [] a
    rw [getBlockGridMap] at *
    simpa using this
  have hmapmap : l.map (fun b => cellKey b.x b.z) =
      (l.map (fun b => (b.x, b.z))).map (fun pr : Int × Int => cellKey pr.1 pr.2) := by
    rw [List.map_map]
    exact List.map_congr_left (fun b _ => rfl)
  rw [hlen, hcard, hkeys, hmapmap, toFinset_map_eq_image,
    Finset.card_image_of_injective _ cellKeyPair_injective]
  rfl

/-- **C6**: in the per-layer grid map, looking up the cell `(x, z)` yields
the LAST record of the layer at that cell (later records overwrite earlier
ones), the map holds at most one entry per cell, and the number of occupied
cells equals the number of distinct `(x, z)` pairs among the blocks of the
selected layer. -/
theorem claim_C6_grid_map (blocks : List Rec) (selectedLayer : Int)
    (x z : Int) :
    mapGet (getBlockGridMap (blocksOnLayer blocks selectedLayer))
        (cellKey x z) =
      lastBlockAt (blocksOnLayer blocks selectedLayer) x z ∧
    ((getBlockGridMap (blocksOnLayer blocks selectedLayer)).filter
        (fun p => p.1 == cellKey x z)).length ≤ 1 ∧
    (getBlockGridMap (blocksOnLayer blocks selectedLayer)).length =
      distinctCells (blocksOnLayer blocks selectedLayer) := by
  refine ⟨?_, ?_, length_getBlockGridMap _⟩
  · rw [getBlockGridMap, mapGet_gridFold]
    have hmapnil : mapGet ([] : GridMap) (cellKey x z) = none := rfl
    rw [hmapnil]
    have hfilter : (blocksOnLayer blocks selectedLayer).filter
        (fun b => cellKey b.x b.z == cellKey x z) =
      (blocksOnLayer blocks selectedLayer).filter
        (fun b => b.x == x && b.z == z) := by
      apply List.filter_congr
      intro b _
      by_cases hb : b.x = x ∧ b.z = z
      · simp [hb.1, hb.2]
      · have hne : ¬(cellKey b.x b.z = cellKey x z) := by
          intro he
          exact hb ⟨(cellKey_injective he).1, (cellKey_injective he).2⟩
        have h1 : (cellKey b.x b.z == cellKey x z) = false := by
          simpa using hne
        have h2 : (b.x == x && b.z == z) = false := by
          rcases not_and_or.mp hb with h | h <;> simp [h]
        rw [h1, h2]
    rw [hfilter, lastBlockAt]
    cases ((blocksOnLayer blocks selectedLayer).filter
        (fun b => b.x == x && b.z == z)).getLast? <;> rfl
  · rw [← List.countP_eq_length_filter]
    exact countP_key_le_one _ (keysNodup_gridFold _ [] (by simp [keysNodup]))

end HytaleBlockReader
